import Mathlib

/-!
# go-utils: deep traversal of dynamically typed trees

A shallow embedding of `utils.go` (package `goutils`): the type classifiers,
`FlattenArray`, `MapGetDeep`, `MapPutDeep`, `MapGetDeepFlattened`,
`sendOrQuit`, `IterMapKeys`, `IterAny`, `MapHasKey`, `ToFloat64` and
`Prettify`, followed by the properties proved about them.

Conventions of the embedding.

* A Go value of static type `any` is a `Value`.  The two shapes the package
  type-asserts to, `map[string]any` and `[]any`, are the constructors `map` and
  `slice`.  A value whose reflect kind is `Map` or `Slice` but whose dynamic
  type is another one (`map[string]int`, `map[int]bool`, `[]int`, ...) is an
  `otherMap` or `otherSlice`: the classifiers accept it, the type assertions
  `m.(map[string]any)` and `m.([]any)` panic on it.
* A function that can panic returns an `Option`; `none` is the panic.
* A Go map is a list of entries; the order of the list is the order in which
  `reflect.Value.MapKeys` hands out the keys in the run under consideration.
  Statements quantify over every list, hence over every enumeration order.
* The nil slice and the empty slice are both `[]`: the code only ever tests a
  result against nil right after building it by `append`, where nil and empty
  coincide.
* `MapPutDeep` mutates the tree in place; here it returns the tree after the
  call.  The embedding is about trees: no map or slice is shared between two
  places of the structure.
* The goroutine of an enumerator is its loop, run against a consumer given by
  the list of its moves and against the choices the runtime makes in a
  `select` with two ready cases.  `IterMapKeys` and `IterAny` as functions to
  lists are what a consumer receives that reads to the end without cancelling.
* `strconv.ParseFloat`, the conversions to `float64` and `json.MarshalIndent`
  are parameters.
-/

namespace GoUtils

/-! ## Values -/

/-- The integer types of Go. -/
inductive IntKind where
  | int | int8 | int16 | int32 | int64
  | uint | uint8 | uint16 | uint32 | uint64
  deriving DecidableEq, Repr

/-- A Go value that is neither a map nor a slice.  Floating-point numbers are
carried by their IEEE bit pattern. -/
inductive Scalar where
  | null
  | bool (b : Bool)
  | int (k : IntKind) (v : Int)
  | float32 (bits : Nat)
  | float64 (bits : Nat)
  | str (s : String)
  deriving DecidableEq, Repr

/-- A key of a map whose dynamic type is not `map[string]any`. -/
inductive Key where
  | str (s : String)
  | int (v : Int)
  | bool (b : Bool)
  deriving DecidableEq, Repr

/-- The text `fmt.Sprintf("%v", key)` produces for a map key held in a
`reflect.Value`: the string itself, the decimal numeral, `true` or `false`. -/
def Key.format : Key → String
  | .str s => s
  | .int v => toString v
  | .bool b => toString b

/-- A Go value of static type `any`. -/
inductive Value where
  | scalar (s : Scalar)
  | map (es : List (String × Value))
  | slice (xs : List Value)
  | otherMap (es : List (Key × Value))
  | otherSlice (xs : List Value)
  deriving Repr

/-! ## Type classifiers -/

/-- Embeds `IsMap`: the reflect kind of `t` is `Map`. -/
def IsMap : Value → Bool
  | .map _ => true
  | .otherMap _ => true
  | _ => false

/-- Embeds `IsSlice`: the reflect kind of `t` is `Slice`. -/
def IsSlice : Value → Bool
  | .slice _ => true
  | .otherSlice _ => true
  | _ => false

/-- Embeds `IsMapOrSlice`. -/
def IsMapOrSlice (t : Value) : Bool :=
  IsMap t || IsSlice t

/-- Embeds `IsString`: the reflect kind of `t` is `String`. -/
def IsString : Value → Bool
  | .scalar (.str _) => true
  | _ => false

/-! ## Map primitives -/

/-- The Go index expression `v, ok := m[key]` on a `map[string]any`:
`some v` when `ok`, `none` otherwise. -/
def lookup (key : String) : List (String × Value) → Option Value
  | [] => none
  | (k, v) :: rest => if k = key then some v else lookup key rest

/-- The Go assignment `m[key] = value` on a `map[string]any` that already
holds `key`: the entry of `key` takes the new value, in place. -/
def assign (key : String) (value : Value) : List (String × Value) → List (String × Value)
  | [] => []
  | (k, v) :: rest =>
    if k = key then (k, value) :: rest else (k, v) :: assign key value rest

/-! ## FlattenArray -/

mutual
/-- The body of the loop of `FlattenArray` for one `item`, `result` being the
slice accumulated so far.  `none` is the panic of `item.([]any)` on a slice of
another type. -/
def FlattenArray.step (result : List Value) : Value → Option (List Value)
  | .slice xs =>
    match FlattenArray.loop [] xs with
    | none => none
    | some flattenedItem => some (result ++ flattenedItem)
  | .otherSlice _ => none
  | item => some (result ++ [item])
/-- The loop `for _, item := range arr` of `FlattenArray`. -/
def FlattenArray.loop (result : List Value) : List Value → Option (List Value)
  | [] => some result
  | item :: rest =>
    match FlattenArray.step result item with
    | none => none
    | some r => FlattenArray.loop r rest
end

/-- Embeds `FlattenArray(arr []any) (result []any)`. -/
def FlattenArray (arr : List Value) : Option (List Value) :=
  FlattenArray.loop [] arr

/-! ## MapGetDeep -/

mutual
/-- Embeds `MapGetDeep(m any, key string) (result []any)`.  On a map the
assertion `m.(map[string]any)` comes first, on a slice `m.([]any)`. -/
def MapGetDeep (m : Value) (key : String) : Option (List Value) :=
  match m with
  | .map es =>
    match lookup key es with
    | some v => some [v]
    | none => MapGetDeep.mapLoop key [] es
  | .otherMap _ => none
  | .slice xs => MapGetDeep.sliceLoop key [] xs
  | .otherSlice _ => none
  | .scalar _ => some []
/-- The loop `for mkey := range IterMapKeys(m, nil)` of `MapGetDeep`, entry by
entry: `m[mkey]` is the value of the entry of `mkey`. -/
def MapGetDeep.mapLoop (key : String) (result : List Value) :
    List (String × Value) → Option (List Value)
  | [] => some result
  | (_, v) :: rest =>
    if IsMapOrSlice v then
      match MapGetDeep v key with
      | none => none
      | some dv =>
        if !dv.isEmpty then MapGetDeep.mapLoop key (result ++ [Value.slice dv]) rest
        else MapGetDeep.mapLoop key result rest
    else MapGetDeep.mapLoop key result rest
/-- The loop `for _, item := range m.([]any)` of `MapGetDeep`. -/
def MapGetDeep.sliceLoop (key : String) (result : List Value) :
    List Value → Option (List Value)
  | [] => some result
  | item :: rest =>
    match MapGetDeep item key with
    | none => none
    | some v =>
      if !v.isEmpty then MapGetDeep.sliceLoop key (result ++ [Value.slice v]) rest
      else MapGetDeep.sliceLoop key result rest
end

/-- Embeds `MapGetDeepFlattened`. -/
def MapGetDeepFlattened (m : Value) (key : String) : Option (List Value) :=
  match MapGetDeep m key with
  | none => none
  | some r => FlattenArray r

/-! ## MapPutDeep -/

mutual
/-- Embeds `MapPutDeep(m any, key string, value any) error`: the tree after the
call (the returned error is always nil), `none` when a type assertion panics. -/
def MapPutDeep (m : Value) (key : String) (value : Value) : Option Value :=
  match m with
  | .map es =>
    match lookup key es with
    | some _ => some (Value.map (assign key value es))
    | none =>
      match MapPutDeep.mapLoop key value es with
      | none => none
      | some es' => some (Value.map es')
  | .otherMap _ => none
  | .slice xs =>
    match MapPutDeep.sliceLoop key value xs with
    | none => none
    | some xs' => some (Value.slice xs')
  | .otherSlice _ => none
  | .scalar s => some (Value.scalar s)
/-- The loop `for mkey := range IterMapKeys(m, nil)` of `MapPutDeep`, entry by
entry: the entries of the map after the loop. -/
def MapPutDeep.mapLoop (key : String) (value : Value) :
    List (String × Value) → Option (List (String × Value))
  | [] => some []
  | (mkey, mvalue) :: rest =>
    if IsMapOrSlice mvalue then
      match MapPutDeep mvalue key value with
      | none => none
      | some mvalue' =>
        match MapPutDeep.mapLoop key value rest with
        | none => none
        | some rest' => some ((mkey, mvalue') :: rest')
    else
      match MapPutDeep.mapLoop key value rest with
      | none => none
      | some rest' => some ((mkey, mvalue) :: rest')
/-- The loop `for _, item := range m.([]any)` of `MapPutDeep`: the elements
of the slice after the loop. -/
def MapPutDeep.sliceLoop (key : String) (value : Value) :
    List Value → Option (List Value)
  | [] => some []
  | item :: rest =>
    match MapPutDeep item key value with
    | none => none
    | some item' =>
      match MapPutDeep.sliceLoop key value rest with
      | none => none
      | some rest' => some (item' :: rest')
end

/-! ## IterMapKeys and MapHasKey -/

/-- Embeds `IterMapKeys(m, nil)` as read to exhaustion by its consumer: the
keys of a value of kind `Map`, each rendered by `fmt.Sprintf("%v", key)`;
nothing for any other value. -/
def IterMapKeys : Value → List String
  | .map es => es.map (fun e => Key.format (Key.str e.1))
  | .otherMap es => es.map (fun e => Key.format e.1)
  | _ => []

/-- The loop of `MapHasKey` over the keys it receives. -/
def MapHasKey.loop (key : String) : List String → Bool
  | [] => false
  | mkey :: rest => if mkey = key then true else MapHasKey.loop key rest

/-- Embeds `MapHasKey(m any, key string) bool`. -/
def MapHasKey (m : Value) (key : String) : Bool :=
  MapHasKey.loop key (IterMapKeys m)

/-! ## Enumerators: sendOrQuit, IterMapKeys, IterAny -/

/-- What the consumer of an enumerator does next: it receives from `out`, or
it cancels by closing `quit`.  A consumer is the list of its moves; at the end
of the list it has stopped for good. -/
inductive Move where
  | recv
  | cancel
  deriving DecidableEq, Repr

/-- Embeds `sendOrQuit`: the `select` between `out <- t` and `<-quit`.
`receiving` says that the consumer is waiting to receive from `out`, `quit`
that the channel `quit` has been closed, `pickSend` which case the runtime
takes when both are ready.  `some true`: the value was sent; `some false`:
the quit case fired; `none`: no case can ever proceed and the goroutine stays
blocked. -/
def sendOrQuit (receiving quit pickSend : Bool) : Option Bool :=
  if receiving && quit then some pickSend
  else if receiving then some true
  else if quit then some false
  else none

/-- The consumer has closed `quit` before its next receive. -/
def cancelsFirst : List Move → Bool
  | .cancel :: _ => true
  | _ => false

/-- The moves of the consumer from its next receive on. -/
def afterCancel : List Move → List Move
  | .cancel :: rest => afterCancel rest
  | moves => moves

/-- The consumer is waiting to receive. -/
def receives : List Move → Bool
  | .recv :: _ => true
  | _ => false

/-- What a run of the producer goroutine of an enumerator amounts to. -/
structure Outcome (α : Type) where
  /-- The values the consumer received, in order. -/
  delivered : List α
  /-- The number of calls of `sendOrQuit` that returned. -/
  yields : Nat
  /-- The goroutine reached `close(out)`: the enumeration has ended. -/
  closed : Bool

/-- The goroutine shared by `IterMapKeys` and `IterAny`: the loop that calls
`sendOrQuit` for every value, whatever the call returns, followed by the
deferred `close(out)`.  `picks` are the choices of the runtime, one per
iteration, `quit` says whether `quit` is closed already, `moves` is the
consumer. -/
def produce {α : Type} (picks : List Bool) (quit : Bool) (moves : List Move) :
    List α → Outcome α
  | [] => Outcome.mk [] 0 true
  | x :: rest =>
    let quit' := quit || cancelsFirst moves
    let moves' := afterCancel moves
    match sendOrQuit (receives moves') quit' (picks.headD false) with
    | none => Outcome.mk [] 0 false
    | some true =>
      let o := produce picks.tail quit' moves'.tail rest
      Outcome.mk (x :: o.delivered) (o.yields + 1) o.closed
    | some false =>
      let o := produce picks.tail quit' moves' rest
      Outcome.mk o.delivered (o.yields + 1) o.closed

/-- Embeds `IterMapKeys(m, quit)` with its consumer: the goroutine runs over
the rendered keys of `m`. -/
def IterMapKeys.run (m : Value) (picks : List Bool) (moves : List Move) : Outcome String :=
  produce picks false moves (IterMapKeys m)

/-- The values the goroutine of `IterAny` goes through: the elements of a
value of kind `Slice`, of any element type, in index order; nothing for any
other value. -/
def IterAny : Value → List Value
  | .slice xs => xs
  | .otherSlice xs => xs
  | _ => []

/-- Embeds `IterAny(t, quit)` with its consumer. -/
def IterAny.run (t : Value) (picks : List Bool) (moves : List Move) : Outcome Value :=
  produce picks false moves (IterAny t)

/-! ## ToFloat64 -/

/-- What `ToFloat64` takes from the language and from `strconv`; a `float64`
is carried by its IEEE bit pattern. -/
structure FloatOps where
  /-- The conversion `float64(v)` of an integer. -/
  ofInt : Int → Nat
  /-- The conversion `float64(v)` of a `float32`. -/
  ofFloat32 : Nat → Nat
  /-- The call `strconv.ParseFloat(v, 1)`: `some fv` when `err == nil`. -/
  parseFloat : String → Option Nat

/-- The message of the error of `ToFloat64`. -/
def cantConvert : String := "Can't convert to float64."

/-- Embeds `ToFloat64(value any) (float64, error)`: the result and the message
of the error, `none` for the nil error.  The type switch has a case for `int`,
`int8`, `int16`, `int32`, `int64`, `uint8`, `uint16`, `uint32`, `uint64`,
`float32`, `float64` and `string`; every other value falls through to the
final `return`. -/
def ToFloat64 (ops : FloatOps) (value : Value) : Nat × Option String :=
  match value with
  | .scalar (.int .int v) => (ops.ofInt v, none)
  | .scalar (.int .int8 v) => (ops.ofInt v, none)
  | .scalar (.int .int16 v) => (ops.ofInt v, none)
  | .scalar (.int .int32 v) => (ops.ofInt v, none)
  | .scalar (.int .int64 v) => (ops.ofInt v, none)
  | .scalar (.int .uint8 v) => (ops.ofInt v, none)
  | .scalar (.int .uint16 v) => (ops.ofInt v, none)
  | .scalar (.int .uint32 v) => (ops.ofInt v, none)
  | .scalar (.int .uint64 v) => (ops.ofInt v, none)
  | .scalar (.float32 v) => (ops.ofFloat32 v, none)
  | .scalar (.float64 v) => (v, none)
  | .scalar (.str v) =>
    match ops.parseFloat v with
    | some fv => (fv, none)
    | none => (0, some cantConvert)
  | _ => (0, some cantConvert)

/-! ## Prettify -/

/-- The Go value `[]byte(b)`. -/
def bytes (b : List Nat) : Value :=
  Value.otherSlice (b.map (fun c => Value.scalar (Scalar.int IntKind.uint8 c)))

/-- Embeds `Prettify(x any) any`; `marshalIndent x` is the call
`json.MarshalIndent(x, "", "  ")`, `some b` when `err == nil`. -/
def Prettify (marshalIndent : Value → Option (List Nat)) (x : Value) : Value :=
  match marshalIndent x with
  | none => x
  | some b => bytes b

/-! ## Specification vocabulary -/

mutual
/-- A tree of the data model: every node is a scalar, a `map[string]any` or a
`[]any`. -/
def IsTree : Value → Bool
  | .scalar _ => true
  | .map es => IsTree.entries es
  | .slice xs => IsTree.items xs
  | .otherMap _ => false
  | .otherSlice _ => false
/-- Every value of the entries is a tree. -/
def IsTree.entries : List (String × Value) → Bool
  | [] => true
  | (_, v) :: rest => IsTree v && IsTree.entries rest
/-- Every element is a tree. -/
def IsTree.items : List Value → Bool
  | [] => true
  | v :: rest => IsTree v && IsTree.items rest
end

mutual
/-- An element of a nested sequence: a sequence element is itself a nested
sequence, any element that is not of kind `Slice` is a leaf. -/
def NestedSeq.item : Value → Bool
  | .slice xs => NestedSeq xs
  | .otherSlice _ => false
  | _ => true
/-- A finitely nested sequence: a `[]any` whose elements of kind `Slice` are,
recursively, nested sequences. -/
def NestedSeq : List Value → Bool
  | [] => true
  | v :: rest => NestedSeq.item v && NestedSeq rest
end

mutual
/-- The leaves of one element, left to right: a sequence is expanded, any
other value is its own single leaf. -/
def leaves : Value → List Value
  | .slice xs => leaves.items xs
  | v => [v]
/-- Reference definition of depth-first flattening: the leaves of the
elements, concatenated in order. -/
def leaves.items : List Value → List Value
  | [] => []
  | v :: rest => leaves v ++ leaves.items rest
end

mutual
/-- The values stored under `key` in the mappings of a tree, at any depth: the
own entry of a mapping first, then what lies beneath its entries, entry by
entry; the elements of a sequence in order. -/
def allHits (key : String) : Value → List Value
  | .map es => (lookup key es).toList ++ allHits.entries key es
  | .slice xs => allHits.items key xs
  | _ => []
/-- The values stored under `key` beneath the entries of a mapping. -/
def allHits.entries (key : String) : List (String × Value) → List Value
  | [] => []
  | (_, v) :: rest => allHits key v ++ allHits.entries key rest
/-- The values stored under `key` in the elements of a sequence. -/
def allHits.items (key : String) : List Value → List Value
  | [] => []
  | v :: rest => allHits key v ++ allHits.items key rest
end

mutual
/-- No mapping that contains `key` has, beneath one of its entries, another
mapping that contains `key`. -/
def NoNestedHit (key : String) : Value → Bool
  | .map es =>
    match lookup key es with
    | some _ => (allHits.entries key es).isEmpty
    | none => NoNestedHit.entries key es
  | .slice xs => NoNestedHit.items key xs
  | _ => true
/-- The condition `NoNestedHit` for the value of every entry. -/
def NoNestedHit.entries (key : String) : List (String × Value) → Bool
  | [] => true
  | (_, v) :: rest => NoNestedHit key v && NoNestedHit.entries key rest
/-- The condition `NoNestedHit` for every element. -/
def NoNestedHit.items (key : String) : List Value → Bool
  | [] => true
  | v :: rest => NoNestedHit key v && NoNestedHit.items key rest
end

/-- Two trees that differ in exactly one place: one entry whose key is `key`,
in one mapping, holds `value` in the second tree; every other entry and
sequence element, and every key, is the same in both. -/
inductive OneEntryChanged (key : String) (value : Value) : Value → Value → Prop where
  | here (pre post : List (String × Value)) (old : Value) :
      OneEntryChanged key value
        (Value.map (pre ++ (key, old) :: post)) (Value.map (pre ++ (key, value) :: post))
  | inMap (pre post : List (String × Value)) (k : String) (c c' : Value) :
      OneEntryChanged key value c c' →
      OneEntryChanged key value
        (Value.map (pre ++ (k, c) :: post)) (Value.map (pre ++ (k, c') :: post))
  | inSlice (pre post : List Value) (c c' : Value) :
      OneEntryChanged key value c c' →
      OneEntryChanged key value
        (Value.slice (pre ++ c :: post)) (Value.slice (pre ++ c' :: post))

/-- The value `m` is a mapping with string keys whose own key set contains
`key`. -/
def HoldsKey (m : Value) (key : String) : Prop :=
  match m with
  | .map es => key ∈ es.map Prod.fst
  | .otherMap es => Key.str key ∈ es.map Prod.fst
  | _ => False

/-! ## Trees of the specification and of the tests -/

/-- A string leaf. -/
def str (s : String) : Value := Value.scalar (Scalar.str s)

/-- An `int` leaf. -/
def num (n : Int) : Value := Value.scalar (Scalar.int IntKind.int n)

/-- The mapping `{"k": "v", "nested": {"k": "deeper"}}` of the specification. -/
def shadowed : Value :=
  Value.map [("k", str "v"), ("nested", Value.map [("k", str "deeper")])]

/-- The first tree of `TestMapGetDeepFlattened`. -/
def testTree1 : Value :=
  Value.map [("A1", Value.map
    [("B1", Value.map [("C1", Value.map [("D1", str "val1")])]),
     ("B2", Value.map [("C1", Value.map [("D1", str "val2")])])])]

/-- The second tree of `TestMapGetDeepFlattened`. -/
def testTree2 : Value :=
  Value.map [("A1", Value.map
    [("B1", Value.map [("C1", Value.slice
        [Value.map [("D1", str "val1")], Value.map [("D1", str "val2")]])]),
     ("B2", Value.map [("C1", Value.map [("D1", str "val3")])])])]

/-- The second array of `TestFlattenArray`: `[1, 2, [3, 4, [5, 6, [7, 8], 9]]]`. -/
def testArray : List Value :=
  [num 1, num 2, Value.slice [num 3, num 4,
    Value.slice [num 5, num 6, Value.slice [num 7, num 8], num 9]]]

/-- The mapping `{"a": {"b": 1}}` of the specification. -/
def nestedB : Value :=
  Value.map [("a", Value.map [("b", num 1)])]

/-- The Go value `map[int]bool{1: true}`. -/
def intKeyed : Value :=
  Value.otherMap [(Key.int 1, Value.scalar (Scalar.bool true))]

/-! ## Further vocabulary and values -/

mutual
/-- The result `after` is the result `before` with every collected value
replaced by `value`, in the same nesting: a direct hit is the single stored
value; any other result is a list of non-empty nested results. -/
inductive Rewritten (value : Value) : List Value → List Value → Prop where
  | hit (old : Value) : Rewritten value [old] [value]
  | nest (before after : List Value) :
      RewrittenAll value before after → Rewritten value before after
/-- Element by element, the nested results of `after` are those of `before`,
rewritten. -/
inductive RewrittenAll (value : Value) : List Value → List Value → Prop where
  | nil : RewrittenAll value [] []
  | cons (d d' before after : List Value) :
      d ≠ [] → Rewritten value d d' → RewrittenAll value before after →
      RewrittenAll value (Value.slice d :: before) (Value.slice d' :: after)
end

/-- The Go value `map[string]int{"a": 1}`. -/
def strIntMap : Value :=
  Value.otherMap [(Key.str "a", num 1)]

/-- The Go value `[]int{1, 2, 3}`. -/
def intSlice : Value :=
  Value.otherSlice [num 1, num 2, num 3]

/-- The Go value `map[string]any{"xs": []int{1, 2, 3}}`. -/
def holdsIntSlice : Value :=
  Value.map [("xs", intSlice)]

/-- Float operations that parse no string, for values on which `ToFloat64`
does not consult them. -/
def noParse : FloatOps :=
  FloatOps.mk (fun _ => 0) (fun _ => 0) (fun _ => none)

/-! ## Properties -/

/-! ### Map primitives -/

/-- A successful lookup splits the entries around the entry it found. -/
theorem lookup_split (key : String) (es : List (String × Value)) (old : Value)
    (h : lookup key es = some old) :
    ∃ pre post, es = pre ++ (key, old) :: post ∧ lookup key pre = none := by
  induction es with
  | nil => simp [lookup] at h
  | cons e rest ih =>
    obtain ⟨k, v⟩ := e
    by_cases hk : k = key
    · subst hk
      have hv : v = old := by simpa [lookup] using h
      subst hv
      exact ⟨[], rest, rfl, rfl⟩
    · have h' : lookup key rest = some old := by simpa [lookup, hk] using h
      obtain ⟨pre, post, hsplit, hpre⟩ := ih h'
      refine ⟨(k, v) :: pre, post, ?_, ?_⟩
      · simp [hsplit]
      · simp [lookup, hk, hpre]

/-- Assigning to a key writes the entry the lookup finds. -/
theorem assign_append (key : String) (value old : Value)
    (pre post : List (String × Value)) (h : lookup key pre = none) :
    assign key value (pre ++ (key, old) :: post) = pre ++ (key, value) :: post := by
  induction pre with
  | nil => simp [assign]
  | cons e rest ih =>
    obtain ⟨k, v⟩ := e
    by_cases hk : k = key
    · simp [lookup, hk] at h
    · have h' : lookup key rest = none := by simpa [lookup, hk] using h
      simp [assign, hk, ih h']

/-- Looking up a key behind entries that do not hold it. -/
theorem lookup_append (key : String) (v : Value)
    (pre post : List (String × Value)) (h : lookup key pre = none) :
    lookup key (pre ++ (key, v) :: post) = some v := by
  induction pre with
  | nil => simp [lookup]
  | cons e rest ih =>
    obtain ⟨k, w⟩ := e
    by_cases hk : k = key
    · simp [lookup, hk] at h
    · have h' : lookup key rest = none := by simpa [lookup, hk] using h
      simp [lookup, hk, ih h']

/-- A lookup succeeds exactly on the keys of the entries. -/
theorem lookup_isSome_iff (key : String) (es : List (String × Value)) :
    (lookup key es).isSome = true ↔ key ∈ es.map Prod.fst := by
  induction es with
  | nil => simp [lookup]
  | cons e rest ih =>
    obtain ⟨k, v⟩ := e
    by_cases hk : k = key
    · simp [lookup, hk]
    · have hk' : ¬ key = k := fun h => hk h.symm
      simp [lookup, hk, hk', ih]

/-! ### FlattenArray -/

mutual
/-- One step of the flattening loop appends the leaves of the item. -/
theorem step_eq_leaves (v : Value) (acc : List Value) (h : NestedSeq.item v = true) :
    FlattenArray.step acc v = some (acc ++ leaves v) := by
  cases v with
  | scalar s => simp [FlattenArray.step, leaves]
  | map es => simp [FlattenArray.step, leaves]
  | otherMap es => simp [FlattenArray.step, leaves]
  | otherSlice xs => simp [NestedSeq.item] at h
  | slice xs =>
    have hx : NestedSeq xs = true := by simpa [NestedSeq.item] using h
    simp [FlattenArray.step, leaves, loop_eq_leaves xs [] hx]
/-- The flattening loop appends the leaves of every item, in order. -/
theorem loop_eq_leaves (xs : List Value) (acc : List Value) (h : NestedSeq xs = true) :
    FlattenArray.loop acc xs = some (acc ++ leaves.items xs) := by
  cases xs with
  | nil => simp [FlattenArray.loop, leaves.items]
  | cons v rest =>
    have hv : NestedSeq.item v = true ∧ NestedSeq rest = true := by
      simpa [NestedSeq] using h
    simp [FlattenArray.loop, leaves.items, step_eq_leaves v acc hv.1,
      loop_eq_leaves rest (acc ++ leaves v) hv.2]
end

mutual
/-- No leaf of an element of a nested sequence is of kind `Slice`. -/
theorem leaves_not_slice (v : Value) (h : NestedSeq.item v = true) :
    ∀ w ∈ leaves v, IsSlice w = false := by
  cases v with
  | scalar s => simp [leaves, IsSlice]
  | map es => simp [leaves, IsSlice]
  | otherMap es => simp [leaves, IsSlice]
  | otherSlice xs => simp [NestedSeq.item] at h
  | slice xs =>
    have hx : NestedSeq xs = true := by simpa [NestedSeq.item] using h
    simpa [leaves] using leaves_items_not_slice xs hx
/-- No leaf of a nested sequence is of kind `Slice`. -/
theorem leaves_items_not_slice (xs : List Value) (h : NestedSeq xs = true) :
    ∀ w ∈ leaves.items xs, IsSlice w = false := by
  cases xs with
  | nil => simp [leaves.items]
  | cons v rest =>
    have hv : NestedSeq.item v = true ∧ NestedSeq rest = true := by
      simpa [NestedSeq] using h
    intro w hw
    rcases List.mem_append.mp (by simpa [leaves.items] using hw) with hw | hw
    · exact leaves_not_slice v hv.1 w hw
    · exact leaves_items_not_slice rest hv.2 w hw
end

/-- The flattening loop copies a list without an element of kind `Slice`. -/
theorem loop_flat (ys : List Value) (acc : List Value)
    (h : ∀ w ∈ ys, IsSlice w = false) :
    FlattenArray.loop acc ys = some (acc ++ ys) := by
  induction ys generalizing acc with
  | nil => simp [FlattenArray.loop]
  | cons v rest ih =>
    have hv : IsSlice v = false := h v (List.mem_cons_self v rest)
    have hrest : ∀ w ∈ rest, IsSlice w = false :=
      fun w hw => h w (List.mem_cons_of_mem v hw)
    have hstep : FlattenArray.step acc v = some (acc ++ [v]) := by
      cases v <;> simp [FlattenArray.step, IsSlice] at hv ⊢
    simp [FlattenArray.loop, hstep, ih (acc ++ [v]) hrest]

/-- C1. Direct hit of the read path: on a mapping that itself holds `key`,
`MapGetDeep` returns exactly the one-element sequence made of the value stored
under `key`, whatever the other entries hold. -/
theorem MapGetDeep_direct_hit (es : List (String × Value)) (key : String) (v : Value)
    (h : lookup key es = some v) :
    MapGetDeep (Value.map es) key = some [v] := by
  simp [MapGetDeep, h]

/-- C1, on the mapping `{"k": "v", "nested": {"k": "deeper"}}` of the
specification: the result is `["v"]`, without `"deeper"`. -/
theorem MapGetDeep_direct_hit_witness :
    MapGetDeep shadowed "k" = some [str "v"] :=
  MapGetDeep_direct_hit
    [("k", str "v"), ("nested", Value.map [("k", str "deeper")])] "k" (str "v") rfl

/-- C4. Direct hit of the write path: on a mapping that itself holds `key`,
`MapPutDeep` rewrites the one entry of `key` to `value`; the entries before and
after it, with everything beneath them, stay as they were. -/
theorem MapPutDeep_direct_hit (es : List (String × Value)) (key : String)
    (value old : Value) (h : lookup key es = some old) :
    ∃ pre post, es = pre ++ (key, old) :: post ∧ lookup key pre = none ∧
      MapPutDeep (Value.map es) key value = some (Value.map (pre ++ (key, value) :: post)) ∧
      lookup key (pre ++ (key, value) :: post) = some value := by
  obtain ⟨pre, post, hsplit, hpre⟩ := lookup_split key es old h
  refine ⟨pre, post, hsplit, hpre, ?_, lookup_append key value pre post hpre⟩
  have hassign := assign_append key value old pre post hpre
  rw [← hsplit] at hassign
  simp [MapPutDeep, h, hassign]

/-- C4, on `{"k": "v", "nested": {"k": "deeper"}}`: only the entry `"k"` of
the root is rewritten, the nested mapping keeps `"deeper"`. -/
theorem MapPutDeep_direct_hit_witness :
    lookup "k" [("k", str "v"), ("nested", Value.map [("k", str "deeper")])]
        = some (str "v") ∧
      ∃ pre post,
        [("k", str "v"), ("nested", Value.map [("k", str "deeper")])]
          = pre ++ ("k", str "v") :: post ∧ lookup "k" pre = none ∧
        MapPutDeep shadowed "k" (str "new")
          = some (Value.map (pre ++ ("k", str "new") :: post)) ∧
        lookup "k" (pre ++ ("k", str "new") :: post) = some (str "new") :=
  ⟨rfl, MapPutDeep_direct_hit
    [("k", str "v"), ("nested", Value.map [("k", str "deeper")])] "k"
    (str "new") (str "v") rfl⟩

/-- C8. `FlattenArray` is depth-first flattening: on a nested sequence it
returns the leaves of the sequence in left-to-right depth-first order, every
nested sequence expanded in place and every other element kept as it is, and
no element of the result is a sequence. -/
theorem FlattenArray_eq_leaves (xs : List Value) (h : NestedSeq xs = true) :
    FlattenArray xs = some (leaves.items xs) ∧
      ∀ w ∈ leaves.items xs, IsSlice w = false := by
  refine ⟨?_, leaves_items_not_slice xs h⟩
  simpa [FlattenArray] using loop_eq_leaves xs [] h

/-- C8, on the array of the test:
`FlattenArray([1,2,[3,4,[5,6,[7,8],9]]]) = [1,2,3,4,5,6,7,8,9]`. -/
theorem FlattenArray_eq_leaves_witness :
    NestedSeq testArray = true ∧
      FlattenArray testArray
        = some [num 1, num 2, num 3, num 4, num 5, num 6, num 7, num 8, num 9] :=
  ⟨rfl, (FlattenArray_eq_leaves testArray rfl).1⟩

/-- C9. Flattening is idempotent: on a nested sequence `FlattenArray` returns
a sequence that `FlattenArray` returns unchanged. -/
theorem FlattenArray_idempotent (xs : List Value) (h : NestedSeq xs = true) :
    ∃ ys, FlattenArray xs = some ys ∧ FlattenArray ys = some ys := by
  refine ⟨leaves.items xs, ?_, ?_⟩
  · simpa [FlattenArray] using loop_eq_leaves xs [] h
  · simpa [FlattenArray] using loop_flat (leaves.items xs) [] (leaves_items_not_slice xs h)

/-- C9, on the array of the test. -/
theorem FlattenArray_idempotent_witness :
    NestedSeq testArray = true ∧
      ∃ ys, FlattenArray testArray = some ys ∧ FlattenArray ys = some ys :=
  ⟨rfl, FlattenArray_idempotent testArray rfl⟩

/-! ### MapHasKey -/

/-- The loop of `MapHasKey` answers whether `key` is among the keys received. -/
theorem MapHasKey_loop_iff (key : String) (ks : List String) :
    MapHasKey.loop key ks = true ↔ key ∈ ks := by
  induction ks with
  | nil => simp [MapHasKey.loop]
  | cons k rest ih =>
    by_cases hk : k = key
    · simp [MapHasKey.loop, hk]
    · have hk' : ¬ key = k := fun h => hk h.symm
      simp [MapHasKey.loop, hk, hk', ih]

/-- C10, refuted as stated: `MapHasKey(map[int]bool{1: true}, "1")` is true,
although the value is not a mapping with string keys and its only key is the
integer 1, not the string `"1"`. -/
theorem MapHasKey_intKeyed :
    MapHasKey intKeyed "1" = true ∧ ¬ HoldsKey intKeyed "1" := by
  refine ⟨rfl, ?_⟩
  simp [HoldsKey, intKeyed]

/-- C10, amended. `MapHasKey` is shallow and compares renderings: it is true
exactly when `m` is of kind `Map` and one of its own direct keys, rendered by
`%v`, is `key`.  Hence on a `map[string]any`, and on any map whose keys are
strings, it is true exactly when the key set contains `key`; it is false when
`key` only occurs one level deeper (`MapHasKey({"a":{"b":1}}, "b")`), and false
on every value that is not of kind `Map`. -/
theorem MapHasKey_shallow (m : Value) (key : String) :
    (MapHasKey m key = true ↔
      (∃ es, m = Value.map es ∧ key ∈ es.map Prod.fst) ∨
      (∃ es, m = Value.otherMap es ∧ ∃ k ∈ es.map Prod.fst, Key.format k = key)) ∧
    ((∀ es, m = Value.otherMap es → ∀ k ∈ es.map Prod.fst, ∃ s, k = Key.str s) →
      (MapHasKey m key = true ↔ HoldsKey m key)) ∧
    (IsMap m = false → MapHasKey m key = false) ∧
    MapHasKey nestedB "b" = false := by
  refine ⟨?_, ?_, ?_, rfl⟩
  · cases m with
    | scalar s => simp [MapHasKey, IterMapKeys, MapHasKey.loop]
    | slice xs => simp [MapHasKey, IterMapKeys, MapHasKey.loop]
    | otherSlice xs => simp [MapHasKey, IterMapKeys, MapHasKey.loop]
    | map es =>
      simp [MapHasKey, IterMapKeys, MapHasKey_loop_iff, Key.format]
    | otherMap es =>
      simp [MapHasKey, IterMapKeys, MapHasKey_loop_iff]
  · intro hstr
    cases m with
    | scalar s => simp [MapHasKey, IterMapKeys, MapHasKey.loop, HoldsKey]
    | slice xs => simp [MapHasKey, IterMapKeys, MapHasKey.loop, HoldsKey]
    | otherSlice xs => simp [MapHasKey, IterMapKeys, MapHasKey.loop, HoldsKey]
    | map es =>
      simp [MapHasKey, IterMapKeys, MapHasKey_loop_iff, Key.format, HoldsKey]
    | otherMap es =>
      simp only [MapHasKey, IterMapKeys, MapHasKey_loop_iff, HoldsKey, List.mem_map]
      constructor
      · rintro ⟨e, he, hfmt⟩
        obtain ⟨s, hs⟩ := hstr es rfl e.1 (List.mem_map.mpr ⟨e, he, rfl⟩)
        refine ⟨e, he, ?_⟩
        rw [hs] at hfmt ⊢
        simpa [Key.format] using hfmt
      · rintro ⟨e, he, hk⟩
        exact ⟨e, he, by rw [hk]; rfl⟩
  · intro hm
    cases m <;> simp [IsMap] at hm <;> simp [MapHasKey, IterMapKeys, MapHasKey.loop]

/-- C10, amended, on `map[string]any{"a": {"b": 1}}` and the key `"a"`. -/
theorem MapHasKey_shallow_witness :
    MapHasKey nestedB "a" = true ∧ HoldsKey nestedB "a" := by
  have h := (MapHasKey_shallow nestedB "a").2.1 (by intro es hes; simp [nestedB] at hes)
  exact ⟨rfl, h.mp rfl⟩

/-! ### The short circuit of a direct hit -/

/-- C3, at `{"k": "v", "nested": {"k": "deeper"}}` and `"k"`: the result of
`MapGetDeep`, flattened or not, is `["v"]`; the value `"deeper"`, stored under
`"k"` in the nested mapping, is not in it. -/
theorem MapGetDeep_misses_nested :
    MapGetDeep shadowed "k" = some [str "v"] ∧
      MapGetDeepFlattened shadowed "k" = some [str "v"] ∧
      allHits "k" shadowed = [str "v", str "deeper"] ∧
      str "deeper" ∉ [str "v"] := by
  refine ⟨rfl, rfl, rfl, ?_⟩
  simp [str]

/-- C5, at `{"k": "v", "nested": {"k": "deeper"}}`, `"k"` and `"new"`: after
`MapPutDeep` the nested mapping still holds `"deeper"` under `"k"`. -/
theorem MapPutDeep_misses_nested :
    MapPutDeep shadowed "k" (str "new")
        = some (Value.map [("k", str "new"), ("nested", Value.map [("k", str "deeper")])]) ∧
      lookup "k" [("k", str "deeper")] = some (str "deeper") ∧
      str "deeper" ≠ str "new" := by
  refine ⟨rfl, rfl, ?_⟩
  simp [str]

/-! ### MapPutDeep without an occurrence of the key -/

mutual
/-- Without an occurrence of `key`, `MapPutDeep` returns the tree it got. -/
theorem put_noop (key : String) (value : Value) (t : Value)
    (hT : IsTree t = true) (h0 : allHits key t = []) :
    MapPutDeep t key value = some t := by
  cases t with
  | scalar s => simp [MapPutDeep]
  | otherMap es => simp [IsTree] at hT
  | otherSlice xs => simp [IsTree] at hT
  | map es =>
    have hes : IsTree.entries es = true := by simpa [IsTree] using hT
    have h0' : lookup key es = none ∧ allHits.entries key es = [] := by
      cases hl : lookup key es <;> simp [allHits, hl] at h0 ⊢
      exact h0
    simp [MapPutDeep, h0'.1, put_noop_entries key value es hes h0'.2]
  | slice xs =>
    have hxs : IsTree.items xs = true := by simpa [IsTree] using hT
    have h0' : allHits.items key xs = [] := by simpa [allHits] using h0
    simp [MapPutDeep, put_noop_items key value xs hxs h0']
/-- Without an occurrence of `key` beneath the entries, the loop over the
entries of a mapping leaves them as they were. -/
theorem put_noop_entries (key : String) (value : Value) (es : List (String × Value))
    (hT : IsTree.entries es = true) (h0 : allHits.entries key es = []) :
    MapPutDeep.mapLoop key value es = some es := by
  cases es with
  | nil => simp [MapPutDeep.mapLoop]
  | cons e rest =>
    obtain ⟨k, v⟩ := e
    have hT' : IsTree v = true ∧ IsTree.entries rest = true := by
      simpa [IsTree.entries] using hT
    have h0' : allHits key v = [] ∧ allHits.entries key rest = [] := by
      simpa [allHits.entries] using h0
    have hrest := put_noop_entries key value rest hT'.2 h0'.2
    have hv := put_noop key value v hT'.1 h0'.1
    by_cases hms : IsMapOrSlice v = true
    · simp [MapPutDeep.mapLoop, hms, hv, hrest]
    · simp [MapPutDeep.mapLoop, hms, hrest]
/-- Without an occurrence of `key` in the elements, the loop over the elements
of a sequence leaves them as they were. -/
theorem put_noop_items (key : String) (value : Value) (xs : List Value)
    (hT : IsTree.items xs = true) (h0 : allHits.items key xs = []) :
    MapPutDeep.sliceLoop key value xs = some xs := by
  cases xs with
  | nil => simp [MapPutDeep.sliceLoop]
  | cons v rest =>
    have hT' : IsTree v = true ∧ IsTree.items rest = true := by
      simpa [IsTree.items] using hT
    have h0' : allHits key v = [] ∧ allHits.items key rest = [] := by
      simpa [allHits.items] using h0
    simp [MapPutDeep.sliceLoop, put_noop key value v hT'.1 h0'.1,
      put_noop_items key value rest hT'.2 h0'.2]
end

/-- C6. `MapPutDeep` never creates a key: on a tree none of whose mappings
contains `key`, the tree after the call is the tree before it. -/
theorem MapPutDeep_absent_key (t : Value) (key : String) (value : Value)
    (hT : IsTree t = true) (h0 : allHits key t = []) :
    MapPutDeep t key value = some t :=
  put_noop key value t hT h0

/-- C6, on the first tree of the tests and a key that occurs nowhere in it. -/
theorem MapPutDeep_absent_key_witness :
    IsTree testTree1 = true ∧ allHits "E1" testTree1 = [] ∧
      MapPutDeep testTree1 "E1" (str "new") = some testTree1 :=
  ⟨rfl, rfl, MapPutDeep_absent_key testTree1 "E1" (str "new") rfl rfl⟩

/-! ### MapGetDeep collects the occurrences of the key -/

/-- A value that is not of kind `Slice` is a leaf. -/
theorem leaf_of_not_slice (v : Value) (h : IsSlice v = false) :
    NestedSeq.item v = true ∧ leaves v = [v] := by
  cases v <;> simp [IsSlice] at h <;> simp [NestedSeq.item, leaves]

/-- A scalar holds no occurrence of a key. -/
theorem allHits_of_not_mapOrSlice (key : String) (v : Value)
    (h : ¬ IsMapOrSlice v = true) : allHits key v = [] := by
  cases v with
  | scalar s => simp [allHits]
  | otherMap es => simp [allHits]
  | otherSlice xs => simp [allHits]
  | map es => simp [IsMapOrSlice, IsMap] at h
  | slice xs => simp [IsMapOrSlice, IsMap, IsSlice] at h

mutual
/-- On a tree without nested occurrences and without a sequence stored under
`key`, the result of `MapGetDeep` is a nested sequence whose leaves are the
values stored under `key`. -/
theorem get_collects (key : String) (t : Value) (hT : IsTree t = true)
    (hN : NoNestedHit key t = true) (hS : ∀ v ∈ allHits key t, IsSlice v = false) :
    ∃ r, MapGetDeep t key = some r ∧ NestedSeq r = true ∧
      leaves.items r = allHits key t := by
  cases t with
  | scalar s => exact ⟨[], by simp [MapGetDeep], rfl, by simp [leaves.items, allHits]⟩
  | otherMap es => simp [IsTree] at hT
  | otherSlice xs => simp [IsTree] at hT
  | map es =>
    have hes : IsTree.entries es = true := by simpa [IsTree] using hT
    cases hl : lookup key es with
    | some v =>
      have hempty : allHits.entries key es = [] := by
        simpa [NoNestedHit, hl] using hN
      have hall : allHits key (Value.map es) = [v] := by simp [allHits, hl, hempty]
      have hv : IsSlice v = false := hS v (by simp [hall])
      have hleaf := leaf_of_not_slice v hv
      refine ⟨[v], by simp [MapGetDeep, hl], ?_, ?_⟩
      · simp [NestedSeq, hleaf.1]
      · simp [leaves.items, hleaf.2, hall]
    | none =>
      have hN' : NoNestedHit.entries key es = true := by simpa [NoNestedHit, hl] using hN
      have hS' : ∀ v ∈ allHits.entries key es, IsSlice v = false := by
        simpa [allHits, hl] using hS
      obtain ⟨r, hr, hseq, hleaves⟩ := get_collects_entries key es hes hN' hS'
      refine ⟨r, ?_, hseq, ?_⟩
      · simpa [MapGetDeep, hl] using hr []
      · simp [allHits, hl, hleaves]
  | slice xs =>
    have hxs : IsTree.items xs = true := by simpa [IsTree] using hT
    have hN' : NoNestedHit.items key xs = true := by simpa [NoNestedHit] using hN
    have hS' : ∀ v ∈ allHits.items key xs, IsSlice v = false := by
      simpa [allHits] using hS
    obtain ⟨r, hr, hseq, hleaves⟩ := get_collects_items key xs hxs hN' hS'
    refine ⟨r, ?_, hseq, ?_⟩
    · simpa [MapGetDeep] using hr []
    · simp [allHits, hleaves]
/-- The loop of `MapGetDeep` over the entries of a mapping appends a nested
sequence whose leaves are the values stored under `key` beneath the entries. -/
theorem get_collects_entries (key : String) (es : List (String × Value))
    (hT : IsTree.entries es = true) (hN : NoNestedHit.entries key es = true)
    (hS : ∀ v ∈ allHits.entries key es, IsSlice v = false) :
    ∃ r, (∀ acc, MapGetDeep.mapLoop key acc es = some (acc ++ r)) ∧
      NestedSeq r = true ∧ leaves.items r = allHits.entries key es := by
  cases es with
  | nil =>
    exact ⟨[], by simp [MapGetDeep.mapLoop], rfl, by simp [leaves.items, allHits.entries]⟩
  | cons e rest =>
    obtain ⟨k, v⟩ := e
    have hT' : IsTree v = true ∧ IsTree.entries rest = true := by
      simpa [IsTree.entries] using hT
    have hN' : NoNestedHit key v = true ∧ NoNestedHit.entries key rest = true := by
      simpa [NoNestedHit.entries] using hN
    have hSv : ∀ w ∈ allHits key v, IsSlice w = false :=
      fun w hw => hS w (by simp [allHits.entries, hw])
    have hSr : ∀ w ∈ allHits.entries key rest, IsSlice w = false :=
      fun w hw => hS w (by simp [allHits.entries, hw])
    obtain ⟨r, hr, hseq, hleaves⟩ := get_collects_entries key rest hT'.2 hN'.2 hSr
    obtain ⟨dv, hdv, hdseq, hdleaves⟩ := get_collects key v hT'.1 hN'.1 hSv
    by_cases hms : IsMapOrSlice v = true
    · cases dv with
      | nil =>
        refine ⟨r, ?_, hseq, ?_⟩
        · intro acc
          simp [MapGetDeep.mapLoop, hms, hdv, hr]
        · simp [allHits.entries, ← hdleaves, leaves.items, hleaves]
      | cons d ds =>
        refine ⟨Value.slice (d :: ds) :: r, ?_, ?_, ?_⟩
        · intro acc
          simp [MapGetDeep.mapLoop, hms, hdv, hr]
        · simp [NestedSeq, NestedSeq.item, hseq] at hdseq ⊢
          exact hdseq
        · simp [allHits.entries, ← hdleaves, leaves.items, leaves, hleaves]
    · refine ⟨r, ?_, hseq, ?_⟩
      · intro acc
        simp [MapGetDeep.mapLoop, hms, hr]
      · simp [allHits.entries, allHits_of_not_mapOrSlice key v hms, hleaves]
/-- The loop of `MapGetDeep` over the elements of a sequence appends a nested
sequence whose leaves are the values stored under `key` in the elements. -/
theorem get_collects_items (key : String) (xs : List Value)
    (hT : IsTree.items xs = true) (hN : NoNestedHit.items key xs = true)
    (hS : ∀ v ∈ allHits.items key xs, IsSlice v = false) :
    ∃ r, (∀ acc, MapGetDeep.sliceLoop key acc xs = some (acc ++ r)) ∧
      NestedSeq r = true ∧ leaves.items r = allHits.items key xs := by
  cases xs with
  | nil =>
    exact ⟨[], by simp [MapGetDeep.sliceLoop], rfl, by simp [leaves.items, allHits.items]⟩
  | cons v rest =>
    have hT' : IsTree v = true ∧ IsTree.items rest = true := by
      simpa [IsTree.items] using hT
    have hN' : NoNestedHit key v = true ∧ NoNestedHit.items key rest = true := by
      simpa [NoNestedHit.items] using hN
    have hSv : ∀ w ∈ allHits key v, IsSlice w = false :=
      fun w hw => hS w (by simp [allHits.items, hw])
    have hSr : ∀ w ∈ allHits.items key rest, IsSlice w = false :=
      fun w hw => hS w (by simp [allHits.items, hw])
    obtain ⟨r, hr, hseq, hleaves⟩ := get_collects_items key rest hT'.2 hN'.2 hSr
    obtain ⟨dv, hdv, hdseq, hdleaves⟩ := get_collects key v hT'.1 hN'.1 hSv
    cases dv with
    | nil =>
      refine ⟨r, ?_, hseq, ?_⟩
      · intro acc
        simp [MapGetDeep.sliceLoop, hdv, hr]
      · simp [allHits.items, ← hdleaves, leaves.items, hleaves]
    | cons d ds =>
      refine ⟨Value.slice (d :: ds) :: r, ?_, ?_, ?_⟩
      · intro acc
        simp [MapGetDeep.sliceLoop, hdv, hr]
      · simp [NestedSeq, NestedSeq.item, hseq] at hdseq ⊢
        exact hdseq
      · simp [allHits.items, ← hdleaves, leaves.items, leaves, hleaves]
end

/-- C2. On a tree in which no mapping containing `key` lies beneath another
mapping containing `key`, and in which no value stored under `key` is a
sequence, `MapGetDeepFlattened` returns, as a multiset, exactly the values
stored under `key` in the mappings of the tree at any depth, sequences
included. -/
theorem MapGetDeepFlattened_collects (t : Value) (key : String)
    (hT : IsTree t = true) (hN : NoNestedHit key t = true)
    (hS : ∀ v ∈ allHits key t, IsSlice v = false) :
    ∃ r, MapGetDeepFlattened t key = some r ∧
      (Multiset.ofList r) = Multiset.ofList (allHits key t) := by
  obtain ⟨nested, hget, hseq, hleaves⟩ := get_collects key t hT hN hS
  refine ⟨allHits key t, ?_, rfl⟩
  have hflat := loop_eq_leaves nested [] hseq
  simp [MapGetDeepFlattened, hget, FlattenArray, hflat, hleaves]

/-- C2, on the two trees of `TestMapGetDeepFlattened`: the values are `val1`
and `val2` for the first, `val1`, `val2` and `val3` for the second. -/
theorem MapGetDeepFlattened_collects_witness :
    (IsTree testTree1 = true ∧ NoNestedHit "D1" testTree1 = true ∧
      ∃ r, MapGetDeepFlattened testTree1 "D1" = some r ∧
        (Multiset.ofList r) = Multiset.ofList [str "val1", str "val2"]) ∧
    (IsTree testTree2 = true ∧ NoNestedHit "D1" testTree2 = true ∧
      ∃ r, MapGetDeepFlattened testTree2 "D1" = some r ∧
        (Multiset.ofList r) = Multiset.ofList [str "val1", str "val2", str "val3"]) :=
  ⟨⟨rfl, rfl, MapGetDeepFlattened_collects testTree1 "D1" rfl rfl
      (by
        intro v hv
        have hall : allHits "D1" testTree1 = [str "val1", str "val2"] := rfl
        rw [hall] at hv
        simp only [List.mem_cons, List.mem_singleton, List.not_mem_nil, or_false] at hv
        rcases hv with h | h <;> (subst h; rfl))⟩,
   ⟨rfl, rfl, MapGetDeepFlattened_collects testTree2 "D1" rfl rfl
      (by
        intro v hv
        have hall : allHits "D1" testTree2 = [str "val1", str "val2", str "val3"] := rfl
        rw [hall] at hv
        simp only [List.mem_cons, List.mem_singleton, List.not_mem_nil, or_false] at hv
        rcases hv with h | h | h <;> (subst h; rfl))⟩⟩

/-! ### MapPutDeep with a single occurrence of the key -/

/-- Two lists whose lengths add up to one: one is empty, the other a
singleton. -/
theorem length_append_eq_one (a b : List Value) (h : (a ++ b).length = 1) :
    (a.length = 1 ∧ b = []) ∨ (a = [] ∧ b.length = 1) := by
  cases a with
  | nil => right; exact ⟨rfl, by simpa using h⟩
  | cons x rest =>
    left
    have h' : rest.length + b.length = 0 := by
      simp only [List.cons_append, List.length_cons, List.length_append] at h
      omega
    have hb : b = [] := List.length_eq_zero.mp (by omega)
    have hr : rest = [] := List.length_eq_zero.mp (by omega)
    simp [hb, hr]

/-- A value with an occurrence of a key is a map or a slice. -/
theorem mapOrSlice_of_hit (key : String) (v : Value)
    (h : (allHits key v).length = 1) : IsMapOrSlice v = true := by
  by_cases hms : IsMapOrSlice v = true
  · exact hms
  · simp [allHits_of_not_mapOrSlice key v hms] at h

mutual
/-- With a single occurrence of `key`, `MapPutDeep` changes that entry and
nothing else. -/
theorem put_one (key : String) (value : Value) (t : Value)
    (hT : IsTree t = true) (h1 : (allHits key t).length = 1) :
    ∃ t', MapPutDeep t key value = some t' ∧ OneEntryChanged key value t t' := by
  cases t with
  | scalar s => simp [allHits] at h1
  | otherMap es => simp [IsTree] at hT
  | otherSlice xs => simp [IsTree] at hT
  | map es =>
    have hes : IsTree.entries es = true := by simpa [IsTree] using hT
    cases hl : lookup key es with
    | some old =>
      obtain ⟨pre, post, hsplit, hpre⟩ := lookup_split key es old hl
      have hassign := assign_append key value old pre post hpre
      rw [← hsplit] at hassign
      refine ⟨Value.map (pre ++ (key, value) :: post), ?_, ?_⟩
      · simp [MapPutDeep, hl, hassign]
      · rw [hsplit]
        exact OneEntryChanged.here pre post old
    | none =>
      have h1' : (allHits.entries key es).length = 1 := by simpa [allHits, hl] using h1
      obtain ⟨pre, post, k, c, c', hsplit, hloop, hch⟩ :=
        put_one_entries key value es hes h1'
      refine ⟨Value.map (pre ++ (k, c') :: post), ?_, ?_⟩
      · simp [MapPutDeep, hl, hloop]
      · rw [hsplit]
        exact OneEntryChanged.inMap pre post k c c' hch
  | slice xs =>
    have hxs : IsTree.items xs = true := by simpa [IsTree] using hT
    have h1' : (allHits.items key xs).length = 1 := by simpa [allHits] using h1
    obtain ⟨pre, post, c, c', hsplit, hloop, hch⟩ := put_one_items key value xs hxs h1'
    refine ⟨Value.slice (pre ++ c' :: post), ?_, ?_⟩
    · simp [MapPutDeep, hloop]
    · rw [hsplit]
      exact OneEntryChanged.inSlice pre post c c' hch
/-- With a single occurrence of `key` beneath the entries of a mapping, the
loop over the entries changes the value of one entry, in one place. -/
theorem put_one_entries (key : String) (value : Value) (es : List (String × Value))
    (hT : IsTree.entries es = true) (h1 : (allHits.entries key es).length = 1) :
    ∃ pre post k c c', es = pre ++ (k, c) :: post ∧
      MapPutDeep.mapLoop key value es = some (pre ++ (k, c') :: post) ∧
      OneEntryChanged key value c c' := by
  cases es with
  | nil => simp [allHits.entries] at h1
  | cons e rest =>
    obtain ⟨k, v⟩ := e
    have hT' : IsTree v = true ∧ IsTree.entries rest = true := by
      simpa [IsTree.entries] using hT
    have hsum : (allHits key v ++ allHits.entries key rest).length = 1 := by
      simpa [allHits.entries] using h1
    rcases length_append_eq_one _ _ hsum with ⟨hv, hrest⟩ | ⟨hv, hrest⟩
    · obtain ⟨v', hput, hch⟩ := put_one key value v hT'.1 hv
      have hms := mapOrSlice_of_hit key v hv
      have hnoop := put_noop_entries key value rest hT'.2 hrest
      refine ⟨[], rest, k, v, v', rfl, ?_, hch⟩
      simp [MapPutDeep.mapLoop, hms, hput, hnoop]
    · obtain ⟨pre, post, k', c, c', hsplit, hloop, hch⟩ :=
        put_one_entries key value rest hT'.2 hrest
      have hnoop := put_noop key value v hT'.1 hv
      refine ⟨(k, v) :: pre, post, k', c, c', by simp [hsplit], ?_, hch⟩
      by_cases hms : IsMapOrSlice v = true
      · simp [MapPutDeep.mapLoop, hms, hnoop, hloop]
      · simp [MapPutDeep.mapLoop, hms, hloop]
/-- With a single occurrence of `key` in the elements of a sequence, the loop
over the elements changes one element, in one place. -/
theorem put_one_items (key : String) (value : Value) (xs : List Value)
    (hT : IsTree.items xs = true) (h1 : (allHits.items key xs).length = 1) :
    ∃ pre post c c', xs = pre ++ c :: post ∧
      MapPutDeep.sliceLoop key value xs = some (pre ++ c' :: post) ∧
      OneEntryChanged key value c c' := by
  cases xs with
  | nil => simp [allHits.items] at h1
  | cons v rest =>
    have hT' : IsTree v = true ∧ IsTree.items rest = true := by
      simpa [IsTree.items] using hT
    have hsum : (allHits key v ++ allHits.items key rest).length = 1 := by
      simpa [allHits.items] using h1
    rcases length_append_eq_one _ _ hsum with ⟨hv, hrest⟩ | ⟨hv, hrest⟩
    · obtain ⟨v', hput, hch⟩ := put_one key value v hT'.1 hv
      have hnoop := put_noop_items key value rest hT'.2 hrest
      refine ⟨[], rest, v, v', rfl, ?_, hch⟩
      simp [MapPutDeep.sliceLoop, hput, hnoop]
    · obtain ⟨pre, post, c, c', hsplit, hloop, hch⟩ :=
        put_one_items key value rest hT'.2 hrest
      have hnoop := put_noop key value v hT'.1 hv
      refine ⟨v :: pre, post, c, c', by simp [hsplit], ?_, hch⟩
      simp [MapPutDeep.sliceLoop, hnoop, hloop]
end

/-- C7. On a tree in which exactly one mapping contains `key`, `MapPutDeep`
returns the tree in which that one entry holds `value`: every other entry and
sequence element is as before, and every mapping has the keys it had. -/
theorem MapPutDeep_single_occurrence (t : Value) (key : String) (value : Value)
    (hT : IsTree t = true) (h1 : (allHits key t).length = 1) :
    ∃ t', MapPutDeep t key value = some t' ∧ OneEntryChanged key value t t' :=
  put_one key value t hT h1

/-- C7, on `{"a": {"b": 1}}` and the key `"b"`. -/
theorem MapPutDeep_single_occurrence_witness :
    IsTree nestedB = true ∧ (allHits "b" nestedB).length = 1 ∧
      ∃ t', MapPutDeep nestedB "b" (num 2) = some t' ∧
        OneEntryChanged "b" (num 2) nestedB t' :=
  ⟨rfl, rfl, MapPutDeep_single_occurrence nestedB "b" (num 2) rfl rfl⟩

/-! ### Values of another concrete type -/

/-- C11, at `map[string]int{"a": 1}`, at `[]int{1, 2, 3}` and at
`map[string]any{"xs": []int{1, 2, 3}}`: `MapGetDeep` and `MapPutDeep` do not
complete, the type assertions `m.(map[string]any)` and `m.([]any)` panic;
`MapHasKey` completes on all three. -/
theorem MapDeep_panics_on_other_types :
    MapGetDeep strIntMap "a" = none ∧ MapPutDeep strIntMap "a" (num 2) = none ∧
      MapGetDeep intSlice "a" = none ∧ MapPutDeep intSlice "a" (num 2) = none ∧
      MapGetDeep holdsIntSlice "a" = none ∧ MapPutDeep holdsIntSlice "a" (num 2) = none ∧
      MapHasKey strIntMap "a" = true ∧ MapHasKey intSlice "a" = false ∧
      MapHasKey holdsIntSlice "a" = false :=
  ⟨rfl, rfl, rfl, rfl, rfl, rfl, rfl, rfl, rfl⟩

/-! ### ToFloat64 -/

/-- C12, at `uint(1)`: `ToFloat64` returns 0 and the error, the type switch
has no case for `uint`; for each of the nine other integer types it returns
the conversion of the integer and no error. -/
theorem ToFloat64_uint (ops : FloatOps) (v : Int) :
    ToFloat64 ops (Value.scalar (Scalar.int IntKind.uint 1)) = (0, some cantConvert) ∧
      ToFloat64 ops (Value.scalar (Scalar.int IntKind.uint v)) = (0, some cantConvert) ∧
      ∀ k, k ≠ IntKind.uint →
        ToFloat64 ops (Value.scalar (Scalar.int k v)) = (ops.ofInt v, none) := by
  refine ⟨rfl, rfl, ?_⟩
  intro k hk
  cases k <;> first | rfl | exact absurd rfl hk

/-- C13. `ToFloat64` rejects what is not a number: on a boolean, on a value of
kind `Map` or `Slice`, and on a string that `strconv.ParseFloat` does not
parse, it returns 0 together with the error `Can't convert to float64.`. -/
theorem ToFloat64_rejects (ops : FloatOps) (value : Value)
    (h : (∃ b, value = Value.scalar (Scalar.bool b)) ∨ IsMap value = true ∨
      IsSlice value = true ∨
      (∃ s, value = Value.scalar (Scalar.str s) ∧ ops.parseFloat s = none)) :
    ToFloat64 ops value = (0, some "Can't convert to float64.") := by
  rcases h with ⟨b, rfl⟩ | h | h | ⟨s, rfl, hs⟩
  · rfl
  · cases value <;> simp [IsMap] at h <;> rfl
  · cases value <;> simp [IsSlice] at h <;> rfl
  · simp [ToFloat64, hs, cantConvert]

/-- C13, on the values of the test: `true`, an empty map and `[]int{1, 2, 3}`;
and on a string that does not parse. -/
theorem ToFloat64_rejects_witness :
    ToFloat64 noParse (Value.scalar (Scalar.bool true)) = (0, some "Can't convert to float64.") ∧
      ToFloat64 noParse (Value.map []) = (0, some "Can't convert to float64.") ∧
      ToFloat64 noParse intSlice = (0, some "Can't convert to float64.") ∧
      ToFloat64 noParse (str "abc") = (0, some "Can't convert to float64.") :=
  ⟨ToFloat64_rejects noParse _ (Or.inl ⟨true, rfl⟩),
   ToFloat64_rejects noParse _ (Or.inr (Or.inl rfl)),
   ToFloat64_rejects noParse _ (Or.inr (Or.inr (Or.inl rfl))),
   ToFloat64_rejects noParse _ (Or.inr (Or.inr (Or.inr ⟨"abc", rfl, rfl⟩)))⟩

/-! ### Prettify -/

/-- C17. `Prettify` never fails: when the serializer fails on `x` it returns
`x` itself, otherwise it returns the bytes the serializer produced. -/
theorem Prettify_falls_back (marshalIndent : Value → Option (List Nat)) (x : Value) :
    (marshalIndent x = none → Prettify marshalIndent x = x) ∧
      (∀ b, marshalIndent x = some b → Prettify marshalIndent x = bytes b) := by
  constructor
  · intro h
    simp [Prettify, h]
  · intro b h
    simp [Prettify, h]

/-- C17, with a serializer that fails on every value and with one that
returns the two bytes of `{}`. -/
theorem Prettify_falls_back_witness :
    Prettify (fun _ => none) shadowed = shadowed ∧
      Prettify (fun _ => some [123, 125]) (Value.map []) = bytes [123, 125] :=
  ⟨(Prettify_falls_back (fun _ => none) shadowed).1 rfl,
   (Prettify_falls_back (fun _ => some [123, 125]) (Value.map [])).2 [123, 125] rfl⟩

/-! ### Enumerators -/

/-- A consumer that only receives, and does so at least once per value,
receives every value in order; every call of `sendOrQuit` sends, and the
goroutine closes `out`. -/
theorem produce_exhaust {α : Type} (xs : List α) (picks : List Bool) (n : Nat)
    (h : xs.length ≤ n) :
    produce picks false (List.replicate n Move.recv) xs = Outcome.mk xs xs.length true := by
  induction xs generalizing picks n with
  | nil => rfl
  | cons x rest ih =>
    cases n with
    | zero => simp at h
    | succ n =>
      have hn : rest.length ≤ n := by simpa using h
      simp [produce, List.replicate_succ, cancelsFirst, afterCancel, receives, sendOrQuit,
        ih picks.tail n hn]

/-- Once `quit` is closed and the consumer has stopped, the loop still calls
`sendOrQuit` for every remaining value before it closes `out`. -/
theorem produce_after_quit {α : Type} (xs : List α) (picks : List Bool) :
    produce picks true [] xs = Outcome.mk [] xs.length true := by
  induction xs generalizing picks with
  | nil => rfl
  | cons x rest ih =>
    simp [produce, cancelsFirst, afterCancel, receives, sendOrQuit, ih picks.tail]

/-- C14. A consumer that reads `IterAny(s, quit)` to exhaustion without
cancelling receives the elements of the sequence `s`, each once, in index
order, and then the enumeration ends; on a value that is not of kind `Slice`
it receives nothing and the enumeration ends. -/
theorem IterAny_exhaust (t : Value) (picks : List Bool) (n : Nat)
    (h : (IterAny t).length ≤ n) :
    IterAny.run t picks (List.replicate n Move.recv)
        = Outcome.mk (IterAny t) (IterAny t).length true ∧
      (∀ xs, t = Value.slice xs → IterAny t = xs) ∧
      (∀ xs, t = Value.otherSlice xs → IterAny t = xs) ∧
      (IsSlice t = false → IterAny t = []) := by
  refine ⟨produce_exhaust (IterAny t) picks n h, ?_, ?_, ?_⟩
  · rintro xs rfl
    rfl
  · rintro xs rfl
    rfl
  · intro hs
    cases t <;> simp [IsSlice] at hs <;> rfl

/-- C14, on `[1, 2, [3, 4, [5, 6, [7, 8], 9]]]` read by four receives, and on a
string read by one. -/
theorem IterAny_exhaust_witness :
    (IterAny.run (Value.slice testArray) [] (List.replicate 4 Move.recv)
        = Outcome.mk testArray 3 true) ∧
      (IterAny.run (str "abc") [] (List.replicate 1 Move.recv) = Outcome.mk [] 0 true) :=
  ⟨(IterAny_exhaust (Value.slice testArray) [] 4 (by decide)).1,
   (IterAny_exhaust (str "abc") [] 1 (by decide)).1⟩

/-- C15, refuted as stated: read to exhaustion, `IterMapKeys` on
`map[int]bool{1: true}` delivers the string `"1"`, although the value is not a
mapping with string keys and `"1"` is not one of its keys. -/
theorem IterMapKeys_intKeyed :
    (IterMapKeys.run intKeyed [] [Move.recv, Move.recv]).delivered = ["1"] ∧
      ¬ HoldsKey intKeyed "1" := by
  refine ⟨rfl, ?_⟩
  simp [HoldsKey, intKeyed]

/-- C15, amended. A consumer that reads `IterMapKeys(m, quit)` to exhaustion
without cancelling receives one string per key of the map `m`, the `%v`
rendering of the key, and then the enumeration ends: on a `map[string]any`
these are the keys themselves, each once, in the order of the enumeration; on
a value that is not of kind `Map` it receives nothing. -/
theorem IterMapKeys_exhaust (m : Value) (picks : List Bool) (n : Nat)
    (h : (IterMapKeys m).length ≤ n) :
    IterMapKeys.run m picks (List.replicate n Move.recv)
        = Outcome.mk (IterMapKeys m) (IterMapKeys m).length true ∧
      (∀ es, m = Value.map es → IterMapKeys m = es.map Prod.fst) ∧
      (∀ es, m = Value.otherMap es → IterMapKeys m = es.map (fun e => Key.format e.1)) ∧
      (IsMap m = false → IterMapKeys m = []) := by
  refine ⟨produce_exhaust (IterMapKeys m) picks n h, ?_, ?_, ?_⟩
  · rintro es rfl
    simp [IterMapKeys, Key.format]
  · rintro es rfl
    rfl
  · intro hm
    cases m <;> simp [IsMap] at hm <;> rfl

/-- C15, amended, on the first tree of the tests and on a string. -/
theorem IterMapKeys_exhaust_witness :
    (IterMapKeys.run testTree1 [] (List.replicate 2 Move.recv) = Outcome.mk ["A1"] 1 true) ∧
      (IterMapKeys.run (str "abc") [] (List.replicate 1 Move.recv) = Outcome.mk [] 0 true) :=
  ⟨(IterMapKeys_exhaust testTree1 [] 2 (by decide)).1,
   (IterMapKeys_exhaust (str "abc") [] 1 (by decide)).1⟩

/-- C16, at `IterAny([]int{1, 2, 3}, quit)` and at `IterMapKeys` on
`map[string]any{"B1": 1, "B2": 2}`: a consumer that cancels at once and stops
receives nothing, yet the goroutine calls `sendOrQuit` for every remaining
value before it ends; a consumer that cancels and goes on receiving can still
be sent every value. -/
theorem enumerator_runs_on_after_cancel :
    IterAny.run intSlice [] [Move.cancel] = Outcome.mk [] 3 true ∧
      IterMapKeys.run (Value.map [("B1", num 1), ("B2", num 2)]) [] [Move.cancel]
        = Outcome.mk [] 2 true ∧
      IterAny.run intSlice [true, true, true]
          [Move.cancel, Move.recv, Move.recv, Move.recv]
        = Outcome.mk [num 1, num 2, num 3] 3 true ∧
      (∀ (xs : List Value) (picks : List Bool),
        produce picks true [] xs = Outcome.mk [] xs.length true) :=
  ⟨rfl, rfl, rfl, fun xs picks => produce_after_quit xs picks⟩

/-! ### MapGetDeep is empty exactly without an occurrence -/

/-- What the loop of `MapGetDeep` over the entries of a mapping appends:
nested results, none of them empty. -/
theorem mapLoop_appends (key : String) (es : List (String × Value)) :
    ∀ acc out, MapGetDeep.mapLoop key acc es = some out →
      ∃ added, out = acc ++ added ∧ ∀ x ∈ added, ∃ dv, x = Value.slice dv ∧ dv ≠ [] := by
  induction es with
  | nil =>
    intro acc out h
    exact ⟨[], by simpa [MapGetDeep.mapLoop] using h.symm, by simp⟩
  | cons e rest ih =>
    obtain ⟨k, v⟩ := e
    intro acc out h
    by_cases hms : IsMapOrSlice v = true
    · cases hv : MapGetDeep v key with
      | none => simp [MapGetDeep.mapLoop, hms, hv] at h
      | some dv =>
        cases dv with
        | nil =>
          have h' : MapGetDeep.mapLoop key acc rest = some out := by
            simpa [MapGetDeep.mapLoop, hms, hv] using h
          exact ih acc out h'
        | cons d ds =>
          have h' : MapGetDeep.mapLoop key (acc ++ [Value.slice (d :: ds)]) rest = some out := by
            simpa [MapGetDeep.mapLoop, hms, hv] using h
          obtain ⟨added, hout, hall⟩ := ih _ out h'
          refine ⟨Value.slice (d :: ds) :: added, by simp [hout], ?_⟩
          intro x hx
          rcases List.mem_cons.mp hx with hx | hx
          · exact ⟨d :: ds, hx, by simp⟩
          · exact hall x hx
    · have h' : MapGetDeep.mapLoop key acc rest = some out := by
        simpa [MapGetDeep.mapLoop, hms] using h
      exact ih acc out h'

/-- What the loop of `MapGetDeep` over the elements of a sequence appends:
nested results, none of them empty. -/
theorem sliceLoop_appends (key : String) (xs : List Value) :
    ∀ acc out, MapGetDeep.sliceLoop key acc xs = some out →
      ∃ added, out = acc ++ added ∧ ∀ x ∈ added, ∃ dv, x = Value.slice dv ∧ dv ≠ [] := by
  induction xs with
  | nil =>
    intro acc out h
    exact ⟨[], by simpa [MapGetDeep.sliceLoop] using h.symm, by simp⟩
  | cons v rest ih =>
    intro acc out h
    cases hv : MapGetDeep v key with
    | none => simp [MapGetDeep.sliceLoop, hv] at h
    | some dv =>
      cases dv with
      | nil =>
        have h' : MapGetDeep.sliceLoop key acc rest = some out := by
          simpa [MapGetDeep.sliceLoop, hv] using h
        exact ih acc out h'
      | cons d ds =>
        have h' : MapGetDeep.sliceLoop key (acc ++ [Value.slice (d :: ds)]) rest = some out := by
          simpa [MapGetDeep.sliceLoop, hv] using h
        obtain ⟨added, hout, hall⟩ := ih _ out h'
        refine ⟨Value.slice (d :: ds) :: added, by simp [hout], ?_⟩
        intro x hx
        rcases List.mem_cons.mp hx with hx | hx
        · exact ⟨d :: ds, hx, by simp⟩
        · exact hall x hx

mutual
/-- On a tree `MapGetDeep` returns, and its result is empty exactly when no
mapping of the tree contains `key`. -/
theorem get_empty_iff (key : String) (t : Value) (hT : IsTree t = true) :
    ∃ r, MapGetDeep t key = some r ∧ (r = [] ↔ allHits key t = []) := by
  cases t with
  | scalar s => exact ⟨[], by simp [MapGetDeep], by simp [allHits]⟩
  | otherMap es => simp [IsTree] at hT
  | otherSlice xs => simp [IsTree] at hT
  | map es =>
    have hes : IsTree.entries es = true := by simpa [IsTree] using hT
    cases hl : lookup key es with
    | some v => exact ⟨[v], by simp [MapGetDeep, hl], by simp [allHits, hl]⟩
    | none =>
      obtain ⟨added, hloop, hiff⟩ := get_empty_iff_entries key es hes
      refine ⟨added, ?_, ?_⟩
      · simpa [MapGetDeep, hl] using hloop []
      · simpa [allHits, hl] using hiff
  | slice xs =>
    have hxs : IsTree.items xs = true := by simpa [IsTree] using hT
    obtain ⟨added, hloop, hiff⟩ := get_empty_iff_items key xs hxs
    refine ⟨added, ?_, ?_⟩
    · simpa [MapGetDeep] using hloop []
    · simpa [allHits] using hiff
/-- The loop over the entries of a mapping appends nothing exactly when no
mapping beneath the entries contains `key`. -/
theorem get_empty_iff_entries (key : String) (es : List (String × Value))
    (hT : IsTree.entries es = true) :
    ∃ added, (∀ acc, MapGetDeep.mapLoop key acc es = some (acc ++ added)) ∧
      (added = [] ↔ allHits.entries key es = []) := by
  cases es with
  | nil => exact ⟨[], by simp [MapGetDeep.mapLoop], by simp [allHits.entries]⟩
  | cons e rest =>
    obtain ⟨k, v⟩ := e
    have hT' : IsTree v = true ∧ IsTree.entries rest = true := by
      simpa [IsTree.entries] using hT
    obtain ⟨added, hloop, hiff⟩ := get_empty_iff_entries key rest hT'.2
    obtain ⟨dv, hdv, hdiff⟩ := get_empty_iff key v hT'.1
    by_cases hms : IsMapOrSlice v = true
    · cases dv with
      | nil =>
        have hnone : allHits key v = [] := hdiff.mp rfl
        refine ⟨added, ?_, ?_⟩
        · intro acc
          simp [MapGetDeep.mapLoop, hms, hdv, hloop]
        · simpa [allHits.entries, hnone] using hiff
      | cons d ds =>
        have hsome : allHits key v ≠ [] := fun h => by simpa using hdiff.mpr h
        refine ⟨Value.slice (d :: ds) :: added, ?_, ?_⟩
        · intro acc
          simp [MapGetDeep.mapLoop, hms, hdv, hloop]
        · simp [allHits.entries, hsome]
    · refine ⟨added, ?_, ?_⟩
      · intro acc
        simp [MapGetDeep.mapLoop, hms, hloop]
      · simpa [allHits.entries, allHits_of_not_mapOrSlice key v hms] using hiff
/-- The loop over the elements of a sequence appends nothing exactly when no
mapping in the elements contains `key`. -/
theorem get_empty_iff_items (key : String) (xs : List Value)
    (hT : IsTree.items xs = true) :
    ∃ added, (∀ acc, MapGetDeep.sliceLoop key acc xs = some (acc ++ added)) ∧
      (added = [] ↔ allHits.items key xs = []) := by
  cases xs with
  | nil => exact ⟨[], by simp [MapGetDeep.sliceLoop], by simp [allHits.items]⟩
  | cons v rest =>
    have hT' : IsTree v = true ∧ IsTree.items rest = true := by
      simpa [IsTree.items] using hT
    obtain ⟨added, hloop, hiff⟩ := get_empty_iff_items key rest hT'.2
    obtain ⟨dv, hdv, hdiff⟩ := get_empty_iff key v hT'.1
    cases dv with
    | nil =>
      have hnone : allHits key v = [] := hdiff.mp rfl
      refine ⟨added, ?_, ?_⟩
      · intro acc
        simp [MapGetDeep.sliceLoop, hdv, hloop]
      · simpa [allHits.items, hnone] using hiff
    | cons d ds =>
      have hsome : allHits key v ≠ [] := fun h => by simpa using hdiff.mpr h
      refine ⟨Value.slice (d :: ds) :: added, ?_, ?_⟩
      · intro acc
        simp [MapGetDeep.sliceLoop, hdv, hloop]
      · simp [allHits.items, hsome]
end

/-- C18. On a tree `MapGetDeep` returns a result that is empty if and only if
no mapping anywhere in the tree contains `key`; on a scalar it is empty; and
whatever the loops of the traversal append to a result is a nested result that
is not empty. -/
theorem MapGetDeep_empty_iff (t : Value) (key : String) (hT : IsTree t = true) :
    ∃ r, MapGetDeep t key = some r ∧ (r = [] ↔ allHits key t = []) ∧
      (∀ s, t = Value.scalar s → r = []) ∧
      (∀ es acc out, MapGetDeep.mapLoop key acc es = some out →
        ∃ added, out = acc ++ added ∧ ∀ x ∈ added, ∃ dv, x = Value.slice dv ∧ dv ≠ []) ∧
      (∀ xs acc out, MapGetDeep.sliceLoop key acc xs = some out →
        ∃ added, out = acc ++ added ∧ ∀ x ∈ added, ∃ dv, x = Value.slice dv ∧ dv ≠ []) := by
  obtain ⟨r, hr, hiff⟩ := get_empty_iff key t hT
  refine ⟨r, hr, hiff, ?_, mapLoop_appends key, sliceLoop_appends key⟩
  rintro s rfl
  simpa [MapGetDeep] using hr.symm

/-- C18, on the second tree of the tests: with the key `"D1"`, which occurs,
and with the key `"E1"`, which does not. -/
theorem MapGetDeep_empty_iff_witness :
    (IsTree testTree2 = true ∧ allHits "E1" testTree2 = [] ∧
      MapGetDeep testTree2 "E1" = some []) ∧
    (allHits "D1" testTree2 ≠ [] ∧ ∃ r, MapGetDeep testTree2 "D1" = some r ∧ r ≠ []) := by
  obtain ⟨r, hr, hiff, _⟩ := MapGetDeep_empty_iff testTree2 "D1" rfl
  have hne : allHits "D1" testTree2 ≠ [] := by
    have hall : allHits "D1" testTree2 = [str "val1", str "val2", str "val3"] := rfl
    simp [hall]
  exact ⟨⟨rfl, rfl, rfl⟩, hne, r, hr, fun h => hne (hiff.mp h)⟩

/-! ### Writing, then reading or writing again -/

/-- After an assignment the lookup finds the assigned value. -/
theorem lookup_assign (key : String) (value old : Value) (es : List (String × Value))
    (h : lookup key es = some old) : lookup key (assign key value es) = some value := by
  obtain ⟨pre, post, hsplit, hpre⟩ := lookup_split key es old h
  rw [hsplit, assign_append key value old pre post hpre]
  exact lookup_append key value pre post hpre

/-- Of two assignments to the same key the second one stays. -/
theorem assign_assign (key : String) (v1 v2 : Value) (es : List (String × Value)) :
    assign key v2 (assign key v1 es) = assign key v2 es := by
  induction es with
  | nil => rfl
  | cons e rest ih =>
    obtain ⟨k, v⟩ := e
    by_cases hk : k = key
    · simp [assign, hk]
    · simp [assign, hk, ih]

/-- The value `MapPutDeep` returns is of the kind of the value it got. -/
theorem put_kind (key : String) (value : Value) (t t' : Value)
    (h : MapPutDeep t key value = some t') : IsMapOrSlice t' = IsMapOrSlice t := by
  cases t with
  | scalar s =>
    have ht : t' = Value.scalar s := by simpa [MapPutDeep] using h.symm
    rw [ht]
  | otherMap es => simp [MapPutDeep] at h
  | otherSlice xs => simp [MapPutDeep] at h
  | map es =>
    cases hl : lookup key es with
    | some old =>
      have ht : t' = Value.map (assign key value es) := by
        simpa [MapPutDeep, hl] using h.symm
      rw [ht]
      rfl
    | none =>
      cases hm : MapPutDeep.mapLoop key value es with
      | none => simp [MapPutDeep, hl, hm] at h
      | some es' =>
        have ht : t' = Value.map es' := by simpa [MapPutDeep, hl, hm] using h.symm
        rw [ht]
        rfl
  | slice xs =>
    cases hm : MapPutDeep.sliceLoop key value xs with
    | none => simp [MapPutDeep, hm] at h
    | some xs' =>
      have ht : t' = Value.slice xs' := by simpa [MapPutDeep, hm] using h.symm
      rw [ht]
      rfl

/-- The loop of `MapPutDeep` over the entries of a mapping gives the mapping
no key it did not have. -/
theorem put_mapLoop_lookup (key : String) (value : Value) (k : String)
    (es : List (String × Value)) :
    ∀ es', MapPutDeep.mapLoop key value es = some es' →
      lookup k es = none → lookup k es' = none := by
  induction es with
  | nil =>
    intro es' h _
    have hes : es' = [] := by simpa [MapPutDeep.mapLoop] using h.symm
    rw [hes]
    rfl
  | cons e rest ih =>
    obtain ⟨mkey, mvalue⟩ := e
    intro es' h hl
    have hne : ¬ mkey = k := by
      intro hk
      simp [lookup, hk] at hl
    have hl' : lookup k rest = none := by simpa [lookup, hne] using hl
    cases hr : MapPutDeep.mapLoop key value rest with
    | none =>
      by_cases hms : IsMapOrSlice mvalue = true
      · cases hv : MapPutDeep mvalue key value <;>
          simp [MapPutDeep.mapLoop, hms, hv, hr] at h
      · simp [MapPutDeep.mapLoop, hms, hr] at h
    | some rest' =>
      have hrest := ih rest' hr hl'
      by_cases hms : IsMapOrSlice mvalue = true
      · cases hv : MapPutDeep mvalue key value with
        | none => simp [MapPutDeep.mapLoop, hms, hv] at h
        | some mvalue' =>
          have hes : es' = (mkey, mvalue') :: rest' := by
            simpa [MapPutDeep.mapLoop, hms, hv, hr] using h.symm
          rw [hes]
          simp [lookup, hne, hrest]
      · have hes : es' = (mkey, mvalue) :: rest' := by
          simpa [MapPutDeep.mapLoop, hms, hr] using h.symm
        rw [hes]
        simp [lookup, hne, hrest]

/-- A rewritten result is empty exactly when the result it comes from is. -/
theorem Rewritten_nil_iff (value : Value) (r r' : List Value)
    (h : Rewritten value r r') : r = [] ↔ r' = [] := by
  cases h with
  | hit old => simp
  | nest before after hall =>
    cases hall with
    | nil => simp
    | cons d d' b a hne hd hrest => simp

mutual
/-- On a tree, `MapPutDeep` returns, `MapGetDeep` returns before and after it,
and the result after is the result before, rewritten. -/
theorem put_then_get (key : String) (value : Value) (t : Value) (hT : IsTree t = true) :
    ∃ t' r r', MapPutDeep t key value = some t' ∧ MapGetDeep t key = some r ∧
      MapGetDeep t' key = some r' ∧ Rewritten value r r' := by
  cases t with
  | scalar s =>
    exact ⟨Value.scalar s, [], [], by simp [MapPutDeep], by simp [MapGetDeep],
      by simp [MapGetDeep], Rewritten.nest [] [] RewrittenAll.nil⟩
  | otherMap es => simp [IsTree] at hT
  | otherSlice xs => simp [IsTree] at hT
  | map es =>
    have hes : IsTree.entries es = true := by simpa [IsTree] using hT
    cases hl : lookup key es with
    | some old =>
      refine ⟨Value.map (assign key value es), [old], [value], ?_, ?_, ?_, Rewritten.hit old⟩
      · simp [MapPutDeep, hl]
      · simp [MapGetDeep, hl]
      · simp [MapGetDeep, lookup_assign key value old es hl]
    | none =>
      obtain ⟨es', added, added', hput, hget, hget', hrw⟩ :=
        put_then_get_entries key value es hes
      have hl' : lookup key es' = none := put_mapLoop_lookup key value key es es' hput hl
      refine ⟨Value.map es', added, added', ?_, ?_, ?_, Rewritten.nest _ _ hrw⟩
      · simp [MapPutDeep, hl, hput]
      · simpa [MapGetDeep, hl] using hget []
      · simpa [MapGetDeep, hl'] using hget' []
  | slice xs =>
    have hxs : IsTree.items xs = true := by simpa [IsTree] using hT
    obtain ⟨xs', added, added', hput, hget, hget', hrw⟩ :=
      put_then_get_items key value xs hxs
    refine ⟨Value.slice xs', added, added', ?_, ?_, ?_, Rewritten.nest _ _ hrw⟩
    · simp [MapPutDeep, hput]
    · simpa [MapGetDeep] using hget []
    · simpa [MapGetDeep] using hget' []
/-- The loops over the entries of a mapping: what the read loop appends after
the write loop is what it appended before, rewritten. -/
theorem put_then_get_entries (key : String) (value : Value) (es : List (String × Value))
    (hT : IsTree.entries es = true) :
    ∃ es' added added', MapPutDeep.mapLoop key value es = some es' ∧
      (∀ acc, MapGetDeep.mapLoop key acc es = some (acc ++ added)) ∧
      (∀ acc, MapGetDeep.mapLoop key acc es' = some (acc ++ added')) ∧
      RewrittenAll value added added' := by
  cases es with
  | nil =>
    exact ⟨[], [], [], by simp [MapPutDeep.mapLoop], by simp [MapGetDeep.mapLoop],
      by simp [MapGetDeep.mapLoop], RewrittenAll.nil⟩
  | cons e rest =>
    obtain ⟨k, c⟩ := e
    have hT' : IsTree c = true ∧ IsTree.entries rest = true := by
      simpa [IsTree.entries] using hT
    obtain ⟨rest', added, added', hput, hget, hget', hrw⟩ :=
      put_then_get_entries key value rest hT'.2
    obtain ⟨c', r, r', hcput, hcget, hcget', hcrw⟩ := put_then_get key value c hT'.1
    by_cases hms : IsMapOrSlice c = true
    · have hms' : IsMapOrSlice c' = true := by
        rw [put_kind key value c c' hcput]
        exact hms
      have hnil := Rewritten_nil_iff value r r' hcrw
      cases r with
      | nil =>
        have hr' : r' = [] := hnil.mp rfl
        subst hr'
        refine ⟨(k, c') :: rest', added, added', ?_, ?_, ?_, hrw⟩
        · simp [MapPutDeep.mapLoop, hms, hcput, hput]
        · intro acc
          simp [MapGetDeep.mapLoop, hms, hcget, hget]
        · intro acc
          simp [MapGetDeep.mapLoop, hms', hcget', hget']
      | cons d ds =>
        cases r' with
        | nil => simp at hnil
        | cons d' ds' =>
          refine ⟨(k, c') :: rest', Value.slice (d :: ds) :: added,
            Value.slice (d' :: ds') :: added', ?_, ?_, ?_, ?_⟩
          · simp [MapPutDeep.mapLoop, hms, hcput, hput]
          · intro acc
            simp [MapGetDeep.mapLoop, hms, hcget, hget]
          · intro acc
            simp [MapGetDeep.mapLoop, hms', hcget', hget']
          · exact RewrittenAll.cons (d :: ds) (d' :: ds') added added' (by simp) hcrw hrw
    · refine ⟨(k, c) :: rest', added, added', ?_, ?_, ?_, hrw⟩
      · simp [MapPutDeep.mapLoop, hms, hput]
      · intro acc
        simp [MapGetDeep.mapLoop, hms, hget]
      · intro acc
        simp [MapGetDeep.mapLoop, hms, hget']
/-- The loops over the elements of a sequence: what the read loop appends
after the write loop is what it appended before, rewritten. -/
theorem put_then_get_items (key : String) (value : Value) (xs : List Value)
    (hT : IsTree.items xs = true) :
    ∃ xs' added added', MapPutDeep.sliceLoop key value xs = some xs' ∧
      (∀ acc, MapGetDeep.sliceLoop key acc xs = some (acc ++ added)) ∧
      (∀ acc, MapGetDeep.sliceLoop key acc xs' = some (acc ++ added')) ∧
      RewrittenAll value added added' := by
  cases xs with
  | nil =>
    exact ⟨[], [], [], by simp [MapPutDeep.sliceLoop], by simp [MapGetDeep.sliceLoop],
      by simp [MapGetDeep.sliceLoop], RewrittenAll.nil⟩
  | cons c rest =>
    have hT' : IsTree c = true ∧ IsTree.items rest = true := by
      simpa [IsTree.items] using hT
    obtain ⟨rest', added, added', hput, hget, hget', hrw⟩ :=
      put_then_get_items key value rest hT'.2
    obtain ⟨c', r, r', hcput, hcget, hcget', hcrw⟩ := put_then_get key value c hT'.1
    have hnil := Rewritten_nil_iff value r r' hcrw
    cases r with
    | nil =>
      have hr' : r' = [] := hnil.mp rfl
      subst hr'
      refine ⟨c' :: rest', added, added', ?_, ?_, ?_, hrw⟩
      · simp [MapPutDeep.sliceLoop, hcput, hput]
      · intro acc
        simp [MapGetDeep.sliceLoop, hcget, hget]
      · intro acc
        simp [MapGetDeep.sliceLoop, hcget', hget']
    | cons d ds =>
      cases r' with
      | nil => simp at hnil
      | cons d' ds' =>
        refine ⟨c' :: rest', Value.slice (d :: ds) :: added,
          Value.slice (d' :: ds') :: added', ?_, ?_, ?_, ?_⟩
        · simp [MapPutDeep.sliceLoop, hcput, hput]
        · intro acc
          simp [MapGetDeep.sliceLoop, hcget, hget]
        · intro acc
          simp [MapGetDeep.sliceLoop, hcget', hget']
        · exact RewrittenAll.cons (d :: ds) (d' :: ds') added added' (by simp) hcrw hrw
end

/-- C19. Write then read: on a tree, the result of `MapGetDeep` after
`MapPutDeep(root, key, v)` is the result of `MapGetDeep` before it with every
collected value replaced by `v`, in the same nesting and with as many hits. -/
theorem MapGetDeep_after_MapPutDeep (t : Value) (key : String) (v : Value)
    (hT : IsTree t = true) :
    ∃ t' r r', MapPutDeep t key v = some t' ∧ MapGetDeep t key = some r ∧
      MapGetDeep t' key = some r' ∧ Rewritten v r r' :=
  put_then_get key v t hT

/-- C19, on the second tree of the tests, the key `"D1"` and the value
`"new"`. -/
theorem MapGetDeep_after_MapPutDeep_witness :
    IsTree testTree2 = true ∧
      ∃ t' r r', MapPutDeep testTree2 "D1" (str "new") = some t' ∧
        MapGetDeep testTree2 "D1" = some r ∧ MapGetDeep t' "D1" = some r' ∧
        Rewritten (str "new") r r' :=
  ⟨rfl, MapGetDeep_after_MapPutDeep testTree2 "D1" (str "new") rfl⟩

mutual
/-- A second `MapPutDeep` on the result of a first one returns what it returns
on the original value. -/
theorem put_put (key : String) (v1 v2 : Value) (t t1 : Value)
    (h : MapPutDeep t key v1 = some t1) :
    MapPutDeep t1 key v2 = MapPutDeep t key v2 := by
  cases t with
  | scalar s =>
    have ht : t1 = Value.scalar s := by simpa [MapPutDeep] using h.symm
    rw [ht]
  | otherMap es => simp [MapPutDeep] at h
  | otherSlice xs => simp [MapPutDeep] at h
  | map es =>
    cases hl : lookup key es with
    | some old =>
      have ht : t1 = Value.map (assign key v1 es) := by
        simpa [MapPutDeep, hl] using h.symm
      rw [ht]
      simp [MapPutDeep, hl, lookup_assign key v1 old es hl, assign_assign]
    | none =>
      cases hm : MapPutDeep.mapLoop key v1 es with
      | none => simp [MapPutDeep, hl, hm] at h
      | some es1 =>
        have ht : t1 = Value.map es1 := by simpa [MapPutDeep, hl, hm] using h.symm
        have hl1 : lookup key es1 = none := put_mapLoop_lookup key v1 key es es1 hm hl
        rw [ht]
        simp [MapPutDeep, hl, hl1, put_put_entries key v1 v2 es es1 hm]
  | slice xs =>
    cases hm : MapPutDeep.sliceLoop key v1 xs with
    | none => simp [MapPutDeep, hm] at h
    | some xs1 =>
      have ht : t1 = Value.slice xs1 := by simpa [MapPutDeep, hm] using h.symm
      rw [ht]
      simp [MapPutDeep, put_put_items key v1 v2 xs xs1 hm]
/-- The second write loop over the entries left by the first one. -/
theorem put_put_entries (key : String) (v1 v2 : Value) (es es1 : List (String × Value))
    (h : MapPutDeep.mapLoop key v1 es = some es1) :
    MapPutDeep.mapLoop key v2 es1 = MapPutDeep.mapLoop key v2 es := by
  cases es with
  | nil =>
    have hes : es1 = [] := by simpa [MapPutDeep.mapLoop] using h.symm
    rw [hes]
  | cons e rest =>
    obtain ⟨mkey, mvalue⟩ := e
    cases hr : MapPutDeep.mapLoop key v1 rest with
    | none =>
      by_cases hms : IsMapOrSlice mvalue = true
      · cases hv : MapPutDeep mvalue key v1 <;>
          simp [MapPutDeep.mapLoop, hms, hv, hr] at h
      · simp [MapPutDeep.mapLoop, hms, hr] at h
    | some rest1 =>
      have hrest := put_put_entries key v1 v2 rest rest1 hr
      by_cases hms : IsMapOrSlice mvalue = true
      · cases hv : MapPutDeep mvalue key v1 with
        | none => simp [MapPutDeep.mapLoop, hms, hv] at h
        | some mvalue1 =>
          have hes : es1 = (mkey, mvalue1) :: rest1 := by
            simpa [MapPutDeep.mapLoop, hms, hv, hr] using h.symm
          have hms1 : IsMapOrSlice mvalue1 = true := by
            rw [put_kind key v1 mvalue mvalue1 hv]
            exact hms
          rw [hes]
          simp [MapPutDeep.mapLoop, hms, hms1, put_put key v1 v2 mvalue mvalue1 hv, hrest]
      · have hes : es1 = (mkey, mvalue) :: rest1 := by
          simpa [MapPutDeep.mapLoop, hms, hr] using h.symm
        rw [hes]
        simp [MapPutDeep.mapLoop, hms, hrest]
/-- The second write loop over the elements left by the first one. -/
theorem put_put_items (key : String) (v1 v2 : Value) (xs xs1 : List Value)
    (h : MapPutDeep.sliceLoop key v1 xs = some xs1) :
    MapPutDeep.sliceLoop key v2 xs1 = MapPutDeep.sliceLoop key v2 xs := by
  cases xs with
  | nil =>
    have hxs : xs1 = [] := by simpa [MapPutDeep.sliceLoop] using h.symm
    rw [hxs]
  | cons item rest =>
    cases hv : MapPutDeep item key v1 with
    | none => simp [MapPutDeep.sliceLoop, hv] at h
    | some item1 =>
      cases hr : MapPutDeep.sliceLoop key v1 rest with
      | none => simp [MapPutDeep.sliceLoop, hv, hr] at h
      | some rest1 =>
        have hxs : xs1 = item1 :: rest1 := by
          simpa [MapPutDeep.sliceLoop, hv, hr] using h.symm
        rw [hxs]
        simp [MapPutDeep.sliceLoop, put_put key v1 v2 item item1 hv,
          put_put_items key v1 v2 rest rest1 hr]
end

/-- C20. Last write wins: on a tree, `MapPutDeep` with `v1` followed by
`MapPutDeep` with `v2` leaves the tree a single `MapPutDeep` with `v2` leaves,
whatever the shape of `v1` and `v2`; with `v1 = v2`, writing twice is writing
once. -/
theorem MapPutDeep_last_write_wins (t : Value) (key : String) (v1 v2 : Value)
    (hT : IsTree t = true) :
    ∃ t1 t2, MapPutDeep t key v1 = some t1 ∧ MapPutDeep t key v2 = some t2 ∧
      MapPutDeep t1 key v2 = some t2 := by
  obtain ⟨t1, _, _, h1, _, _, _⟩ := put_then_get key v1 t hT
  obtain ⟨t2, _, _, h2, _, _, _⟩ := put_then_get key v2 t hT
  exact ⟨t1, t2, h1, h2, (put_put key v1 v2 t t1 h1).trans h2⟩

/-- C20, on the second tree of the tests: first a mapping that itself contains
`"D1"` is written, then the string `"new"`. -/
theorem MapPutDeep_last_write_wins_witness :
    IsTree testTree2 = true ∧
      ∃ t1 t2, MapPutDeep testTree2 "D1" (Value.map [("D1", str "inner")]) = some t1 ∧
        MapPutDeep testTree2 "D1" (str "new") = some t2 ∧
        MapPutDeep t1 "D1" (str "new") = some t2 :=
  ⟨rfl, MapPutDeep_last_write_wins testTree2 "D1"
    (Value.map [("D1", str "inner")]) (str "new") rfl⟩

end GoUtils
